import Mathlib

/-!
Verification of `geo`'s `line_interpolate_point` algorithm
(src/geo/src/algorithm/line_interpolate_point.rs).

The Rust code works over an IEEE-style floating-point scalar type `T : Float`.
We embed the scalar type shallowly as `Fp`: either NaN, one of the two
infinities, or a finite value carried exactly as a rational number.  The
arithmetic operations (`+`, `-`, `*`, `/`), the partial comparison
`partial_cmp` and the `is_finite` test follow the IEEE-754 special-value
rules; finite-by-finite arithmetic is exact (the model idealises away
rounding and overflow of finite intermediate results, which no claim here
depends on except as noted in the results).
-/

namespace Geo

/-- Embedding of the IEEE floating-point scalar type `T : Float` used by the
Rust code: NaN, the two infinities, or an exact finite value. -/
inductive Fp where
  | nan : Fp
  | pinf : Fp
  | ninf : Fp
  | fin : ℚ → Fp
deriving DecidableEq

namespace Fp

/-- Three-way comparison of rationals, mirroring how `partial_cmp` orders two
finite floats. -/
def qcmp (a b : ℚ) : Ordering :=
  if a < b then Ordering.lt else if a = b then Ordering.eq else Ordering.gt

/-- IEEE `partial_cmp`: `none` exactly when one operand is NaN. -/
def pcmp : Fp → Fp → Option Ordering
  | nan, _ => none
  | _, nan => none
  | ninf, ninf => some Ordering.eq
  | ninf, _ => some Ordering.lt
  | pinf, pinf => some Ordering.eq
  | pinf, _ => some Ordering.gt
  | fin _, ninf => some Ordering.gt
  | fin _, pinf => some Ordering.lt
  | fin a, fin b => some (qcmp a b)

/-- IEEE addition on the special values; exact on finite values. -/
def add : Fp → Fp → Fp
  | nan, _ => nan
  | _, nan => nan
  | pinf, ninf => nan
  | pinf, _ => pinf
  | ninf, pinf => nan
  | ninf, _ => ninf
  | fin _, pinf => pinf
  | fin _, ninf => ninf
  | fin a, fin b => fin (a + b)

/-- IEEE negation. -/
def neg : Fp → Fp
  | nan => nan
  | pinf => ninf
  | ninf => pinf
  | fin a => fin (-a)

/-- IEEE subtraction, as addition of the negation. -/
def sub (a b : Fp) : Fp := add a (neg b)

/-- IEEE multiplication on the special values (`inf * 0 = NaN`); exact on
finite values. -/
def mul : Fp → Fp → Fp
  | nan, _ => nan
  | _, nan => nan
  | pinf, pinf => pinf
  | pinf, ninf => ninf
  | ninf, pinf => ninf
  | ninf, ninf => pinf
  | pinf, fin b => if 0 < b then pinf else if b < 0 then ninf else nan
  | fin a, pinf => if 0 < a then pinf else if a < 0 then ninf else nan
  | ninf, fin b => if 0 < b then ninf else if b < 0 then pinf else nan
  | fin a, ninf => if 0 < a then ninf else if a < 0 then pinf else nan
  | fin a, fin b => fin (a * b)

/-- IEEE division on the special values (`0 / 0 = NaN`, `x / 0 = ±inf` for
`x ≠ 0` with a positive zero divisor, `x / inf = 0`); exact on finite values
with a nonzero divisor.  The model has a single (positive) zero. -/
def div : Fp → Fp → Fp
  | nan, _ => nan
  | _, nan => nan
  | fin a, fin b =>
      if b = 0 then (if a = 0 then nan else if 0 < a then pinf else ninf)
      else fin (a / b)
  | fin _, pinf => fin 0
  | fin _, ninf => fin 0
  | pinf, fin b => if b < 0 then ninf else pinf
  | ninf, fin b => if b < 0 then pinf else ninf
  | pinf, pinf => nan
  | pinf, ninf => nan
  | ninf, pinf => nan
  | ninf, ninf => nan

/-- Rust's `is_finite`: true exactly on finite values. -/
def isFinite : Fp → Bool
  | fin _ => true
  | _ => false

instance : Add Fp := ⟨Fp.add⟩
instance : Neg Fp := ⟨Fp.neg⟩
instance : Sub Fp := ⟨Fp.sub⟩
instance : Mul Fp := ⟨Fp.mul⟩
instance : Div Fp := ⟨Fp.div⟩

end Fp

/-- `geo::Coordinate<T>`: a pair of scalars.  `geo::Point<T>` is a transparent
wrapper around `Coordinate<T>` and `.into()` is the identity on the data, so
the output point type is modelled by `Coordinate` as well. -/
structure Coordinate where
  x : Fp
  y : Fp
deriving DecidableEq

/-- `geo::Line<T>`: an ordered pair of coordinates.  The Rust field `end` is a
Lean keyword, so it is named `stop` here. -/
structure Line where
  start : Coordinate
  stop : Coordinate
deriving DecidableEq

/-- A coordinate is finite when both scalars are. -/
def Coordinate.isFinite (c : Coordinate) : Bool :=
  c.x.isFinite && c.y.isFinite

/-- A segment is finite when both endpoints are. -/
def Line.isFinite (l : Line) : Bool :=
  l.start.isFinite && l.stop.isFinite

/-- A `LineString` is an ordered sequence of coordinates. -/
abbrev LineString := List Coordinate

/-- All coordinates of a path are finite (`LineString` version of
`is_finite`). -/
def finitePath (ls : LineString) : Bool :=
  ls.all Coordinate.isFinite

/-- `LineString::lines()`: the list of segments between consecutive
coordinates. -/
def lines : LineString → List Line
  | a :: b :: rest => ⟨a, b⟩ :: lines (b :: rest)
  | _ => []

/-- Embedding of `<Line<T> as LineInterpolatePoint<T>>::line_interpolate_point`:
compare the fraction with 0 and 1 first (returning an endpoint exactly, or
`none` on an undefined comparison), otherwise compute
`start + fraction * (end - start)` componentwise and return it only if both
components are finite. -/
def lineInterpolatePoint (l : Line) (fraction : Fp) : Option Coordinate :=
  match Fp.pcmp fraction (Fp.fin 0) with
  | none => none
  | some Ordering.lt => some l.start
  | some Ordering.eq => some l.start
  | some Ordering.gt =>
    match Fp.pcmp fraction (Fp.fin 1) with
    | none => none
    | some Ordering.gt => some l.stop
    | some Ordering.eq => some l.stop
    | some Ordering.lt =>
      let vx := l.stop.x - l.start.x
      let vy := l.stop.y - l.start.y
      let rx := fraction * vx + l.start.x
      let ry := fraction * vy + l.start.y
      if rx.isFinite && ry.isFinite then some ⟨rx, ry⟩ else none

/-- Modelled from the spec: the Euclidean-length collaborator
(`LineString::euclidean_length`, which is not part of the analysed source) is
required to be consistent, i.e. the length of a path is the sum of the lengths
of its segments; the running total starts at zero and is accumulated left to
right exactly as in the interpolation loop. -/
def lineStringLength (len : Line → Fp) (ls : LineString) : Fp :=
  (lines ls).foldl (fun acc l => acc + len l) (Fp.fin 0)

/-- The recorded queue of the Rust loop: for each segment, an optional tuple
`(cumulative length before, comparison of cumulative-plus-own length with the
fractional length, own length, segment)`; the entry is `none` when the
comparison is undefined. -/
def buildQueue (len : Line → Fp) (fracLen : Fp) :
    List Line → Fp → List (Option (Fp × Ordering × Fp × Line))
  | [], _ => []
  | l :: rest, cum =>
    ((Fp.pcmp (cum + len l) fracLen).map fun o => (cum, o, len l, l)) ::
      buildQueue len fracLen rest (cum + len l)

/-- Rust's `collect::<Option<Vec<_>>>()`: all entries, or `none` if any entry
is `none`. -/
def collectOptions {α : Type} : List (Option α) → Option (List α)
  | [] => some []
  | none :: _ => none
  | some a :: rest => (collectOptions rest).map fun q => a :: q

/-- The `find` predicate of the Rust code: keep the first queue entry whose
comparison is not `Less`. -/
def notLess (e : Fp × Ordering × Fp × Line) : Bool :=
  decide (e.2.1 ≠ Ordering.lt)

/-- Embedding of
`<LineString<T> as LineInterpolatePoint<T>>::line_interpolate_point`:
compute the total length and the fractional target length, record the
comparison queue over the segments, fail if any comparison was undefined,
otherwise delegate to the first segment whose end reaches the target (with the
rescaled local fraction), falling back to the last point of the path. -/
def lineStringInterpolatePoint (len : Line → Fp) (ls : LineString)
    (fraction : Fp) : Option Coordinate :=
  let totalLength := lineStringLength len ls
  let fractionalLength := totalLength * fraction
  let queue := buildQueue len fractionalLength (lines ls) (Fp.fin 0)
  Option.join ((collectOptions queue).map fun q =>
    match q.find? notLess with
    | some e => lineInterpolatePoint e.2.2.2 ((fractionalLength - e.1) / e.2.2.1)
    | none => ls.getLast?)

/-- Proof-side fusion of `collectOptions` and `find?` over the queue:
`none` when some comparison is undefined, `some none` when no segment
reaches the target, `some (some entry)` for the first entry whose comparison
is not `Less`.  Proved equal to the queue pipeline in `collect_find_eq_runQueue`. -/
def runQueue (len : Line → Fp) (fracLen : Fp) :
    List Line → Fp → Option (Option (Fp × Ordering × Fp × Line))
  | [], _ => some none
  | l :: rest, cum =>
    match Fp.pcmp (cum + len l) fracLen with
    | none => none
    | some o =>
      match runQueue len fracLen rest (cum + len l) with
      | none => none
      | some r => some (if notLess (cum, o, len l, l) then some (cum, o, len l, l) else r)

/-- The tail of the path interpolation, phrased through `runQueue`. -/
def selectInterp (len : Line → Fp) (fracLen : Fp) (segs : List Line)
    (cum : Fp) (fb : Option Coordinate) : Option Coordinate :=
  match runQueue len fracLen segs cum with
  | none => none
  | some none => fb
  | some (some e) => lineInterpolatePoint e.2.2.2 ((fracLen - e.1) / e.2.2.1)

/-- Modelled from the spec: the Euclidean-length collaborator for a single
segment is out of scope of the analysed source; per §6 it is any function
returning a non-negative finite scalar on finite segments, NaN exactly on
segments with a non-finite coordinate, and (being a Euclidean distance) zero
exactly on degenerate segments. -/
structure IsLengthLike (len : Line → Fp) : Prop where
  nan_iff : ∀ l : Line, len l = Fp.nan ↔ l.isFinite = false
  fin_of : ∀ l : Line, l.isFinite = true → ∃ q : ℚ, 0 ≤ q ∧ len l = Fp.fin q
  zero_iff : ∀ l : Line, l.isFinite = true → (len l = Fp.fin 0 ↔ l.start = l.stop)

/-- Rational absolute value by cases, kept kernel-computable. -/
def qabs (q : ℚ) : ℚ := if q < 0 then -q else q

/-- A concrete admissible length function used to evaluate witnesses and
counterexamples: taxicab length on finite segments (which agrees with the
Euclidean length on the axis-aligned and degenerate segments appearing in all
concrete inputs below), NaN on non-finite segments. -/
def lenW (l : Line) : Fp :=
  match l.start.x, l.start.y, l.stop.x, l.stop.y with
  | Fp.fin ax, Fp.fin ay, Fp.fin bx, Fp.fin cy =>
      Fp.fin (qabs (bx - ax) + qabs (cy - ay))
  | _, _, _, _ => Fp.nan

end Geo

namespace Geo

/-- Consecutive segments of a chain share an endpoint. -/
def chainedSegs : List Line → Prop
  | l1 :: l2 :: rest => l1.stop = l2.start ∧ chainedSegs (l2 :: rest)
  | _ => True

/-! ### Concrete inputs shared by witnesses and counterexamples -/

/-- A finite path whose first segment is degenerate (zero length) but whose
total length is positive; Euclidean and taxicab lengths agree on it. -/
def pDegen : LineString :=
  [⟨Fp.fin 0, Fp.fin 0⟩, ⟨Fp.fin 0, Fp.fin 0⟩, ⟨Fp.fin 1, Fp.fin 0⟩]

/-- A plain finite two-point path; Euclidean and taxicab lengths agree. -/
def pPlain : LineString := [⟨Fp.fin 0, Fp.fin 0⟩, ⟨Fp.fin 2, Fp.fin 0⟩]

/-! ### Basic facts about the scalar model -/

theorem Fp.pcmp_nan_right (x : Fp) : Fp.pcmp x Fp.nan = none := by
  cases x <;> rfl

theorem Fp.pcmp_nan_left (x : Fp) : Fp.pcmp Fp.nan x = none := by
  cases x <;> rfl

theorem Fp.add_nan_right (x : Fp) : x + Fp.nan = Fp.nan := by
  cases x <;> rfl

theorem Fp.mul_nan_right (x : Fp) : x * Fp.nan = Fp.nan := by
  cases x <;> rfl

theorem Fp.fin_add_fin (a b : ℚ) : Fp.fin a + Fp.fin b = Fp.fin (a + b) := rfl

theorem Fp.fin_sub_fin (a b : ℚ) : Fp.fin a - Fp.fin b = Fp.fin (a - b) := by
  show Fp.fin (a + -b) = Fp.fin (a - b)
  rw [← sub_eq_add_neg]

theorem Fp.fin_mul_fin (a b : ℚ) : Fp.fin a * Fp.fin b = Fp.fin (a * b) := rfl

theorem Fp.fin_div_fin (a b : ℚ) (hb : b ≠ 0) : Fp.fin a / Fp.fin b = Fp.fin (a / b) := by
  show Fp.div (Fp.fin a) (Fp.fin b) = Fp.fin (a / b)
  simp [Fp.div, hb]

theorem Fp.fin_div_zero_of_neg (a : ℚ) (ha : a < 0) : Fp.fin a / Fp.fin 0 = Fp.ninf := by
  show Fp.div (Fp.fin a) (Fp.fin 0) = Fp.ninf
  simp [Fp.div, ha.ne, not_lt.2 ha.le]

theorem Fp.zero_div_zero : Fp.fin 0 / Fp.fin 0 = Fp.nan := by
  show Fp.div (Fp.fin 0) (Fp.fin 0) = Fp.nan
  simp [Fp.div]

theorem Fp.ninf_div_fin_of_nonneg (b : ℚ) (hb : 0 ≤ b) : Fp.ninf / Fp.fin b = Fp.ninf := by
  show Fp.div Fp.ninf (Fp.fin b) = Fp.ninf
  simp [Fp.div, not_lt.2 hb]

theorem Fp.ninf_sub_fin (b : ℚ) : Fp.ninf - Fp.fin b = Fp.ninf := rfl

theorem Fp.fin_mul_pinf_of_pos (a : ℚ) (ha : 0 < a) : Fp.fin a * Fp.pinf = Fp.pinf := by
  show Fp.mul (Fp.fin a) Fp.pinf = Fp.pinf
  simp [Fp.mul, ha]

theorem Fp.fin_mul_ninf_of_pos (a : ℚ) (ha : 0 < a) : Fp.fin a * Fp.ninf = Fp.ninf := by
  show Fp.mul (Fp.fin a) Fp.ninf = Fp.ninf
  simp [Fp.mul, ha]

theorem Fp.zero_mul_pinf : Fp.fin 0 * Fp.pinf = Fp.nan := by
  show Fp.mul (Fp.fin 0) Fp.pinf = Fp.nan
  simp [Fp.mul]

theorem Fp.zero_mul_ninf : Fp.fin 0 * Fp.ninf = Fp.nan := by
  show Fp.mul (Fp.fin 0) Fp.ninf = Fp.nan
  simp [Fp.mul]

theorem Fp.qcmp_lt {a b : ℚ} (h : a < b) : Fp.qcmp a b = Ordering.lt := by
  simp [Fp.qcmp, h]

theorem Fp.qcmp_self (a : ℚ) : Fp.qcmp a a = Ordering.eq := by
  simp [Fp.qcmp]

theorem Fp.qcmp_gt {a b : ℚ} (h : b < a) : Fp.qcmp a b = Ordering.gt := by
  simp [Fp.qcmp, not_lt.2 h.le, h.ne.symm]

theorem Fp.pcmp_fin_fin (a b : ℚ) : Fp.pcmp (Fp.fin a) (Fp.fin b) = some (Fp.qcmp a b) := rfl

/-! ### Fusing the queue pipeline into `runQueue` -/

theorem collect_find_eq_runQueue (len : Line → Fp) (f : Fp) :
    ∀ (segs : List Line) (cum : Fp),
      (collectOptions (buildQueue len f segs cum)).map (fun q => q.find? notLess) =
        runQueue len f segs cum := by
  intro segs
  induction segs with
  | nil => intro cum; rfl
  | cons l rest ih =>
    intro cum
    show (collectOptions (((Fp.pcmp (cum + len l) f).map fun o => (cum, o, len l, l)) ::
        buildQueue len f rest (cum + len l))).map (fun q => q.find? notLess) =
      runQueue len f (l :: rest) cum
    cases hc : Fp.pcmp (cum + len l) f with
    | none =>
      simp only [hc, Option.map_none']
      show (none : Option _).map _ = runQueue len f (l :: rest) cum
      unfold runQueue
      rw [hc]
      rfl
    | some o =>
      have hrest := ih (cum + len l)
      unfold runQueue
      rw [hc]
      cases hq : collectOptions (buildQueue len f rest (cum + len l)) with
      | none =>
        rw [hq] at hrest
        simp only [Option.map_none'] at hrest
        rw [← hrest]
        simp only [hc, Option.map_some']
        show (collectOptions (some (cum, o, len l, l) ::
          buildQueue len f rest (cum + len l))).map (fun q => q.find? notLess) = none
        unfold collectOptions
        rw [hq]
        rfl
      | some qs =>
        rw [hq] at hrest
        simp only [Option.map_some'] at hrest
        rw [← hrest]
        simp only [hc, Option.map_some']
        show (collectOptions (some (cum, o, len l, l) ::
          buildQueue len f rest (cum + len l))).map (fun q => q.find? notLess) = _
        unfold collectOptions
        rw [hq]
        simp only [Option.map_some']
        cases hn : notLess (cum, o, len l, l) with
        | true => simp [List.find?_cons_of_pos _ hn]
        | false =>
          simp [List.find?_cons_of_neg _ (by simp [hn] : ¬ notLess (cum, o, len l, l) = true)]

/-- The path interpolator, re-expressed through `runQueue`. -/
theorem interp_eq_selectInterp (len : Line → Fp) (ls : LineString) (fraction : Fp) :
    lineStringInterpolatePoint len ls fraction =
      selectInterp len (lineStringLength len ls * fraction) (lines ls) (Fp.fin 0)
        ls.getLast? := by
  unfold lineStringInterpolatePoint selectInterp
  rw [← collect_find_eq_runQueue]
  cases h : collectOptions (buildQueue len (lineStringLength len ls * fraction)
      (lines ls) (Fp.fin 0)) with
  | none => simp [h]
  | some qs =>
    cases hq : qs.find? notLess with
    | none => simp [h, hq]
    | some e => simp [h, hq]

end Geo

namespace Geo

/-! ### The segment interpolator at special fractions -/

theorem interp_nan (l : Line) : lineInterpolatePoint l Fp.nan = none := rfl

theorem interp_ninf (l : Line) : lineInterpolatePoint l Fp.ninf = some l.start := rfl

theorem interp_pinf (l : Line) : lineInterpolatePoint l Fp.pinf = some l.stop := rfl

theorem interp_fin_nonpos (l : Line) (q : ℚ) (hq : q ≤ 0) :
    lineInterpolatePoint l (Fp.fin q) = some l.start := by
  rcases lt_or_eq_of_le hq with h | h
  · simp [lineInterpolatePoint, Fp.pcmp_fin_fin, Fp.qcmp_lt h]
  · subst h
    simp [lineInterpolatePoint, Fp.pcmp_fin_fin, Fp.qcmp_self]

theorem interp_fin_one_le (l : Line) (q : ℚ) (hq : 1 ≤ q) :
    lineInterpolatePoint l (Fp.fin q) = some l.stop := by
  have h0 : Fp.qcmp q 0 = Ordering.gt := Fp.qcmp_gt (by linarith)
  rcases lt_or_eq_of_le hq with h | h
  · simp [lineInterpolatePoint, Fp.pcmp_fin_fin, h0, Fp.qcmp_gt h]
  · subst h
    simp [lineInterpolatePoint, Fp.pcmp_fin_fin, h0, Fp.qcmp_self]

theorem interp_fin_mid (l : Line) (q : ℚ) (h0 : 0 < q) (h1 : q < 1) :
    lineInterpolatePoint l (Fp.fin q) =
      (if (Fp.fin q * (l.stop.x - l.start.x) + l.start.x).isFinite &&
          (Fp.fin q * (l.stop.y - l.start.y) + l.start.y).isFinite then
        some ⟨Fp.fin q * (l.stop.x - l.start.x) + l.start.x,
              Fp.fin q * (l.stop.y - l.start.y) + l.start.y⟩
      else none) := by
  simp only [lineInterpolatePoint, Fp.pcmp_fin_fin, Fp.qcmp_gt h0, Fp.qcmp_lt h1]

/-! ### Structure of `lines` -/

theorem lines_nil : lines [] = [] := rfl

theorem lines_single (c : Coordinate) : lines [c] = [] := rfl

theorem lines_cons_cons (a b : Coordinate) (rest : List Coordinate) :
    lines (a :: b :: rest) = ⟨a, b⟩ :: lines (b :: rest) := rfl

theorem eq_single_of_lines_nil (ls : LineString) (hne : ls ≠ []) (h : lines ls = []) :
    ∃ c, ls = [c] := by
  cases ls with
  | nil => exact absurd rfl hne
  | cons a tail =>
    cases tail with
    | nil => exact ⟨a, rfl⟩
    | cons b rest => simp [lines_cons_cons] at h

theorem head_of_lines (ls : LineString) (l0 : Line) (rest : List Line)
    (h : lines ls = l0 :: rest) : ls.head? = some l0.start := by
  cases ls with
  | nil => simp [lines_nil] at h
  | cons a tail =>
    cases tail with
    | nil => simp [lines_single] at h
    | cons b r =>
      rw [lines_cons_cons] at h
      obtain ⟨rfl, -⟩ := List.cons.inj h
      rfl

theorem getLast_lines : ∀ (rest : List Coordinate) (a b : Coordinate),
    ((lines (a :: b :: rest)).getLast?).map Line.stop = (a :: b :: rest).getLast? := by
  intro rest
  induction rest with
  | nil => intro a b; rfl
  | cons c r ih =>
    intro a b
    rw [lines_cons_cons, lines_cons_cons, List.getLast?_cons_cons, List.getLast?_cons_cons,
      ← lines_cons_cons]
    exact ih b c

theorem chained_lines (ls : LineString) : chainedSegs (lines ls) := by
  induction ls with
  | nil => exact trivial
  | cons a tail ih =>
    cases tail with
    | nil => exact trivial
    | cons b rest =>
      cases rest with
      | nil => exact trivial
      | cons c r =>
        exact ⟨rfl, ih⟩

theorem chainedSegs_tail (l1 l2 : Line) (rest : List Line)
    (h : chainedSegs (l1 :: l2 :: rest)) : chainedSegs (l2 :: rest) := h.2

theorem chainedSegs_tail' (l1 : Line) (rest : List Line)
    (h : chainedSegs (l1 :: rest)) : chainedSegs rest := by
  cases rest with
  | nil => exact trivial
  | cons l2 r => exact h.2

theorem stop_getLast_of_degenerate : ∀ (rest : List Line) (l0 : Line),
    chainedSegs (l0 :: rest) → (∀ l ∈ rest, l.start = l.stop) →
    ((l0 :: rest).getLast?).map Line.stop = some l0.stop := by
  intro rest
  induction rest with
  | nil => intro l0 _ _; rfl
  | cons l1 r ih =>
    intro l0 hch hdeg
    have h01 : l0.stop = l1.start := hch.1
    have h1 : l1.start = l1.stop := hdeg l1 (List.mem_cons_self l1 r)
    rw [List.getLast?_cons_cons,
      ih l1 hch.2 (fun l hl => hdeg l (List.mem_cons_of_mem _ hl)), h01, h1]

theorem mem_coords_of_mem_lines (l : Line) :
    ∀ (ls : LineString), l ∈ lines ls → l.start ∈ ls ∧ l.stop ∈ ls := by
  intro ls
  induction ls with
  | nil => intro h; simp [lines_nil] at h
  | cons a tail ih =>
    cases tail with
    | nil => intro h; simp [lines_single] at h
    | cons b rest =>
      intro h
      rw [lines_cons_cons] at h
      rcases List.mem_cons.1 h with rfl | h'
      · exact ⟨List.mem_cons_self _ _, List.mem_cons_of_mem _ (List.mem_cons_self _ _)⟩
      · obtain ⟨h1, h2⟩ := ih h'
        exact ⟨List.mem_cons_of_mem _ h1, List.mem_cons_of_mem _ h2⟩

theorem mem_lines_of_mem_coords (c : Coordinate) :
    ∀ (ls : LineString), 2 ≤ ls.length → c ∈ ls →
      ∃ l ∈ lines ls, c = l.start ∨ c = l.stop := by
  intro ls
  induction ls with
  | nil => intro h2 _; simp at h2
  | cons a tail ih =>
    cases tail with
    | nil => intro h2 _; simp at h2
    | cons b rest =>
      intro _ hc
      rcases List.mem_cons.1 hc with rfl | hc'
      · exact ⟨⟨c, b⟩, List.mem_cons_self _ _, Or.inl rfl⟩
      · cases rest with
        | nil =>
          rcases List.mem_cons.1 hc' with rfl | hc''
          · exact ⟨⟨a, c⟩, List.mem_cons_self _ _, Or.inr rfl⟩
          · simp at hc''
        | cons d r =>
          obtain ⟨l, hl, hcl⟩ := ih (by simp) hc'
          exact ⟨l, List.mem_cons_of_mem _ hl, hcl⟩

theorem lines_finite_of_finitePath (ls : LineString) (hf : finitePath ls = true) :
    ∀ l ∈ lines ls, l.isFinite = true := by
  intro l hl
  obtain ⟨h1, h2⟩ := mem_coords_of_mem_lines l ls hl
  have hall := List.all_eq_true.1 hf
  simp only [Line.isFinite, Bool.and_eq_true]
  exact ⟨hall _ h1, hall _ h2⟩

end Geo

namespace Geo

/-! ### Stepping `runQueue` and `selectInterp` -/

theorem runQueue_nil (len : Line → Fp) (f cum : Fp) :
    runQueue len f [] cum = some none := rfl

theorem runQueue_cons (len : Line → Fp) (f : Fp) (l : Line) (rest : List Line) (cum : Fp) :
    runQueue len f (l :: rest) cum =
      match Fp.pcmp (cum + len l) f with
      | none => none
      | some o =>
        match runQueue len f rest (cum + len l) with
        | none => none
        | some r =>
          some (if notLess (cum, o, len l, l) then some (cum, o, len l, l) else r) := rfl

theorem notLess_lt (cum q : Fp) (l : Line) :
    notLess (cum, Ordering.lt, q, l) = false := rfl

theorem notLess_of_ne (cum q : Fp) (l : Line) (o : Ordering) (ho : o ≠ Ordering.lt) :
    notLess (cum, o, q, l) = true := by
  simp [notLess, ho]

theorem runQueue_cons_lt (len : Line → Fp) (f : Fp) (l : Line) (rest : List Line) (cum : Fp)
    (hc : Fp.pcmp (cum + len l) f = some Ordering.lt) :
    runQueue len f (l :: rest) cum = runQueue len f rest (cum + len l) := by
  rw [runQueue_cons, hc]
  cases hr : runQueue len f rest (cum + len l) with
  | none => rfl
  | some r => simp [notLess_lt]

theorem runQueue_cons_sel (len : Line → Fp) (f : Fp) (l : Line) (rest : List Line) (cum : Fp)
    (o : Ordering) (hc : Fp.pcmp (cum + len l) f = some o) (ho : o ≠ Ordering.lt)
    (r : Option (Fp × Ordering × Fp × Line))
    (hr : runQueue len f rest (cum + len l) = some r) :
    runQueue len f (l :: rest) cum = some (some (cum, o, len l, l)) := by
  rw [runQueue_cons, hc, hr]
  simp [notLess_of_ne _ _ _ _ ho]

theorem selectInterp_of_runQueue_none (len : Line → Fp) (f : Fp) (segs : List Line)
    (cum : Fp) (fb : Option Coordinate) (h : runQueue len f segs cum = none) :
    selectInterp len f segs cum fb = none := by
  unfold selectInterp
  rw [h]

theorem selectInterp_of_runQueue_fb (len : Line → Fp) (f : Fp) (segs : List Line)
    (cum : Fp) (fb : Option Coordinate) (h : runQueue len f segs cum = some none) :
    selectInterp len f segs cum fb = fb := by
  unfold selectInterp
  rw [h]

theorem selectInterp_of_runQueue_sel (len : Line → Fp) (f : Fp) (segs : List Line)
    (cum : Fp) (fb : Option Coordinate) (e : Fp × Ordering × Fp × Line)
    (h : runQueue len f segs cum = some (some e)) :
    selectInterp len f segs cum fb = lineInterpolatePoint e.2.2.2 ((f - e.1) / e.2.2.1) := by
  unfold selectInterp
  rw [h]

/-! ### Folding finite non-negative lengths -/

theorem foldl_len_spec (len : Line → Fp) :
    ∀ (segs : List Line), (∀ l ∈ segs, ∃ q : ℚ, 0 ≤ q ∧ len l = Fp.fin q) →
    ∀ c : ℚ, ∃ T : ℚ,
      segs.foldl (fun acc l => acc + len l) (Fp.fin c) = Fp.fin T ∧ c ≤ T ∧
      (T ≤ c → ∀ l ∈ segs, len l = Fp.fin 0) := by
  intro segs
  induction segs with
  | nil =>
    intro _ c
    exact ⟨c, rfl, le_refl c, fun _ l hl => absurd hl (List.not_mem_nil l)⟩
  | cons l rest ih =>
    intro h c
    obtain ⟨q, hq0, hlq⟩ := h l (List.mem_cons_self l rest)
    obtain ⟨T, hT, hcT, hz⟩ := ih (fun l' hl' => h l' (List.mem_cons_of_mem _ hl')) (c + q)
    refine ⟨T, ?_, by linarith, ?_⟩
    · show rest.foldl (fun acc l => acc + len l) (Fp.fin c + len l) = Fp.fin T
      rw [hlq, Fp.fin_add_fin]
      exact hT
    · intro hTc l' hl'
      have hq0' : q = 0 := by linarith
      rcases List.mem_cons.1 hl' with rfl | hl''
      · rw [hlq, hq0']
      · exact hz (by linarith) l' hl''

theorem runQueue_fin_isSome (len : Line → Fp) :
    ∀ (segs : List Line), (∀ l ∈ segs, ∃ q : ℚ, 0 ≤ q ∧ len l = Fp.fin q) →
    ∀ (t c : ℚ), ∃ r, runQueue len (Fp.fin t) segs (Fp.fin c) = some r := by
  intro segs
  induction segs with
  | nil => intro _ t c; exact ⟨none, rfl⟩
  | cons l rest ih =>
    intro h t c
    obtain ⟨q, -, hlq⟩ := h l (List.mem_cons_self l rest)
    obtain ⟨r, hr⟩ := ih (fun l' hl' => h l' (List.mem_cons_of_mem _ hl')) t (c + q)
    rw [runQueue_cons]
    rw [show (Fp.fin c + len l) = Fp.fin (c + q) by rw [hlq, Fp.fin_add_fin],
      Fp.pcmp_fin_fin, hr]
    exact ⟨_, rfl⟩

theorem runQueue_beyond (len : Line → Fp) :
    ∀ (segs : List Line), (∀ l ∈ segs, ∃ q : ℚ, 0 ≤ q ∧ len l = Fp.fin q) →
    ∀ (c T t : ℚ),
      segs.foldl (fun acc l => acc + len l) (Fp.fin c) = Fp.fin T → T < t →
      runQueue len (Fp.fin t) segs (Fp.fin c) = some none := by
  intro segs
  induction segs with
  | nil => intro _ c T t _ _; rfl
  | cons l rest ih =>
    intro h c T t hfold hTt
    obtain ⟨q, hq0, hlq⟩ := h l (List.mem_cons_self l rest)
    have hrest : ∀ l' ∈ rest, ∃ q' : ℚ, 0 ≤ q' ∧ len l' = Fp.fin q' :=
      fun l' hl' => h l' (List.mem_cons_of_mem _ hl')
    have hfold' : rest.foldl (fun acc l => acc + len l) (Fp.fin (c + q)) = Fp.fin T := by
      have : rest.foldl (fun acc l => acc + len l) (Fp.fin c + len l) = Fp.fin T := hfold
      rwa [hlq, Fp.fin_add_fin] at this
    obtain ⟨T2, hT2, hcqT2, -⟩ := foldl_len_spec len rest hrest (c + q)
    have hT2T : T2 = T := by
      rw [hT2] at hfold'
      exact Fp.fin.inj hfold'
    have hlt : c + q < t := by linarith
    have hstep : Fp.pcmp (Fp.fin c + len l) (Fp.fin t) = some Ordering.lt := by
      rw [hlq, Fp.fin_add_fin, Fp.pcmp_fin_fin, Fp.qcmp_lt hlt]
    rw [runQueue_cons_lt len _ l rest _ hstep, hlq, Fp.fin_add_fin]
    exact ih hrest (c + q) T t hfold' hTt

theorem runQueue_pinf_target (len : Line → Fp) :
    ∀ (segs : List Line), (∀ l ∈ segs, ∃ q : ℚ, 0 ≤ q ∧ len l = Fp.fin q) →
    ∀ (c : ℚ), runQueue len Fp.pinf segs (Fp.fin c) = some none := by
  intro segs
  induction segs with
  | nil => intro _ c; rfl
  | cons l rest ih =>
    intro h c
    obtain ⟨q, -, hlq⟩ := h l (List.mem_cons_self l rest)
    have hstep : Fp.pcmp (Fp.fin c + len l) Fp.pinf = some Ordering.lt := by
      rw [hlq, Fp.fin_add_fin]; rfl
    rw [runQueue_cons_lt len _ l rest _ hstep, hlq, Fp.fin_add_fin]
    exact ih (fun l' hl' => h l' (List.mem_cons_of_mem _ hl')) (c + q)

theorem runQueue_nan_target (len : Line → Fp) (l : Line) (rest : List Line) (cum : Fp) :
    runQueue len Fp.nan (l :: rest) cum = none := by
  rw [runQueue_cons, Fp.pcmp_nan_right]

theorem runQueue_nan_length (len : Line → Fp) :
    ∀ (segs : List Line), (∃ l ∈ segs, len l = Fp.nan) →
    ∀ (f cum : Fp), runQueue len f segs cum = none := by
  intro segs
  induction segs with
  | nil => intro h _ _; simp at h
  | cons l rest ih =>
    intro h f cum
    rw [runQueue_cons]
    obtain ⟨l', hl', hnan⟩ := h
    rcases List.mem_cons.1 hl' with rfl | hl''
    · rw [hnan, Fp.add_nan_right, Fp.pcmp_nan_left]
    · rw [ih ⟨l', hl'', hnan⟩ f (cum + len l)]
      cases Fp.pcmp (cum + len l) f <;> rfl

theorem runQueue_sel_mem (len : Line → Fp) (f : Fp) :
    ∀ (segs : List Line) (cum : Fp) (e : Fp × Ordering × Fp × Line),
      runQueue len f segs cum = some (some e) → e.2.2.2 ∈ segs := by
  intro segs
  induction segs with
  | nil => intro cum e h; simp [runQueue_nil] at h
  | cons l rest ih =>
    intro cum e h
    cases hpc : Fp.pcmp (cum + len l) f with
    | none =>
      rw [runQueue_cons, hpc] at h
      simp at h
    | some o =>
      cases hr : runQueue len f rest (cum + len l) with
      | none =>
        rw [runQueue_cons, hpc, hr] at h
        simp at h
      | some r =>
        by_cases ho : o = Ordering.lt
        · subst ho
          rw [runQueue_cons_lt len f l rest cum hpc] at h
          exact List.mem_cons_of_mem _ (ih _ e h)
        · rw [runQueue_cons_sel len f l rest cum o hpc ho r hr] at h
          have h2 := Option.some.inj (Option.some.inj h)
          rw [← h2]
          exact List.mem_cons_self l rest

end Geo

namespace Geo

/-! ### The path interpolation at the total length and at special targets -/

/-- When the target equals the remaining total length (and is strictly ahead),
the scan selects the first segment whose cumulative end reaches it, the local
fraction is exactly 1, and the result is the last point of the chain. -/
theorem selectInterp_total (len : Line → Fp) (hspec : IsLengthLike len) (t : ℚ) :
    ∀ (segs : List Line) (c : ℚ), (∀ l ∈ segs, l.isFinite = true) → chainedSegs segs →
      c < t → segs.foldl (fun acc l => acc + len l) (Fp.fin c) = Fp.fin t →
      ∀ fb, selectInterp len (Fp.fin t) segs (Fp.fin c) fb =
        (segs.getLast?).map Line.stop := by
  intro segs
  induction segs with
  | nil =>
    intro c _ _ hct hfold _
    exact absurd (Fp.fin.inj hfold) (ne_of_lt hct)
  | cons l rest ih =>
    intro c hfin hch hct hfold fb
    have hlf : l.isFinite = true := hfin l (List.mem_cons_self l rest)
    obtain ⟨q, hq0, hlq⟩ := hspec.fin_of l hlf
    have hfinrest : ∀ l' ∈ rest, l'.isFinite = true :=
      fun l' hl' => hfin l' (List.mem_cons_of_mem _ hl')
    have hnnrest : ∀ l' ∈ rest, ∃ q' : ℚ, 0 ≤ q' ∧ len l' = Fp.fin q' :=
      fun l' hl' => hspec.fin_of l' (hfinrest l' hl')
    have hfold' : rest.foldl (fun acc l => acc + len l) (Fp.fin (c + q)) = Fp.fin t := by
      have h0 : rest.foldl (fun acc l => acc + len l) (Fp.fin c + len l) = Fp.fin t := hfold
      rwa [hlq, Fp.fin_add_fin] at h0
    obtain ⟨T, hT, hcqT, hz⟩ := foldl_len_spec len rest hnnrest (c + q)
    have hTt : T = t := Fp.fin.inj (hT.symm.trans hfold')
    rcases lt_or_le (c + q) t with hlt | hge
    · -- the head segment ends strictly before the target: skip it
      have hstep : Fp.pcmp (Fp.fin c + len l) (Fp.fin t) = some Ordering.lt := by
        rw [hlq, Fp.fin_add_fin, Fp.pcmp_fin_fin, Fp.qcmp_lt hlt]
      have hrne : rest ≠ [] := by
        rintro rfl
        exact absurd (Fp.fin.inj hfold') (ne_of_lt hlt)
      have hrq : runQueue len (Fp.fin t) (l :: rest) (Fp.fin c) =
          runQueue len (Fp.fin t) rest (Fp.fin (c + q)) := by
        rw [runQueue_cons_lt len _ l rest _ hstep, hlq, Fp.fin_add_fin]
      have hsel : selectInterp len (Fp.fin t) (l :: rest) (Fp.fin c) fb =
          selectInterp len (Fp.fin t) rest (Fp.fin (c + q)) fb := by
        unfold selectInterp
        rw [hrq]
      rw [hsel, ih (c + q) hfinrest (chainedSegs_tail' l rest hch) hlt hfold' fb]
      obtain ⟨l2, r2, rfl⟩ := List.exists_cons_of_ne_nil hrne
      rw [List.getLast?_cons_cons]
    · -- the head segment reaches the target exactly: it is selected
      have hcq : c + q = t := le_antisymm (hTt ▸ hcqT) hge
      have hqpos : 0 < q := by linarith
      have hstep : Fp.pcmp (Fp.fin c + len l) (Fp.fin t) = some Ordering.eq := by
        rw [hlq, Fp.fin_add_fin, Fp.pcmp_fin_fin, hcq, Fp.qcmp_self]
      obtain ⟨r, hr⟩ := runQueue_fin_isSome len rest hnnrest t (c + q)
      have hr' : runQueue len (Fp.fin t) rest (Fp.fin c + len l) = some r := by
        rwa [hlq, Fp.fin_add_fin]
      have hrq := runQueue_cons_sel len (Fp.fin t) l rest (Fp.fin c)
        Ordering.eq hstep (by simp) r hr'
      rw [selectInterp_of_runQueue_sel len (Fp.fin t) (l :: rest) (Fp.fin c) fb _ hrq]
      have hfrac : (Fp.fin t - Fp.fin c) / len l = Fp.fin 1 := by
        rw [hlq, Fp.fin_sub_fin, Fp.fin_div_fin _ _ (ne_of_gt hqpos)]
        congr 1
        rw [← hcq]
        field_simp
      show lineInterpolatePoint l ((Fp.fin t - Fp.fin c) / len l) =
        ((l :: rest).getLast?).map Line.stop
      rw [hfrac, interp_fin_one_le l 1 (le_refl 1)]
      have hdeg : ∀ l' ∈ rest, l'.start = l'.stop := by
        intro l' hl'
        have hz' : len l' = Fp.fin 0 := hz (by linarith) l' hl'
        exact (hspec.zero_iff l' (hfinrest l' hl')).1 hz'
      exact (stop_getLast_of_degenerate rest l hch hdeg).symm

/-- A positive-length first segment absorbs every non-positive finite target:
the local fraction is non-positive, so the start of that segment is returned. -/
theorem selectInterp_first_pos_fin (len : Line → Fp) (l0 : Line) (rest : List Line)
    (fb : Option Coordinate) (q0 u : ℚ) (hl : len l0 = Fp.fin q0) (hq : 0 < q0)
    (hu : u ≤ 0)
    (hnn : ∀ l' ∈ rest, ∃ q' : ℚ, 0 ≤ q' ∧ len l' = Fp.fin q') :
    selectInterp len (Fp.fin u) (l0 :: rest) (Fp.fin 0) fb = some l0.start := by
  have hstep : Fp.pcmp (Fp.fin 0 + len l0) (Fp.fin u) = some Ordering.gt := by
    rw [hl, Fp.fin_add_fin, Fp.pcmp_fin_fin, Fp.qcmp_gt (by linarith)]
  obtain ⟨r, hr⟩ := runQueue_fin_isSome len rest hnn u (0 + q0)
  have hr' : runQueue len (Fp.fin u) rest (Fp.fin 0 + len l0) = some r := by
    rwa [hl, Fp.fin_add_fin]
  have hrq := runQueue_cons_sel len (Fp.fin u) l0 rest (Fp.fin 0)
    Ordering.gt hstep (by simp) r hr'
  rw [selectInterp_of_runQueue_sel len (Fp.fin u) (l0 :: rest) (Fp.fin 0) fb _ hrq]
  show lineInterpolatePoint l0 ((Fp.fin u - Fp.fin 0) / len l0) = some l0.start
  rw [hl, Fp.fin_sub_fin, Fp.fin_div_fin _ _ (ne_of_gt hq)]
  exact interp_fin_nonpos l0 _ (div_nonpos_iff.2 (Or.inr ⟨by linarith, hq.le⟩))

/-- `runQueue` with a negative-infinite target over finite lengths never
fails (each comparison is defined). -/
theorem runQueue_ninf_isSome (len : Line → Fp) :
    ∀ (segs : List Line), (∀ l ∈ segs, ∃ q : ℚ, 0 ≤ q ∧ len l = Fp.fin q) →
    ∀ (c : ℚ), ∃ r, runQueue len Fp.ninf segs (Fp.fin c) = some r := by
  intro segs
  induction segs with
  | nil => intro _ c; exact ⟨none, rfl⟩
  | cons l rest ih =>
    intro h c
    obtain ⟨q, -, hlq⟩ := h l (List.mem_cons_self l rest)
    obtain ⟨r, hr⟩ := ih (fun l' hl' => h l' (List.mem_cons_of_mem _ hl')) (c + q)
    rw [runQueue_cons]
    rw [show (Fp.fin c + len l) = Fp.fin (c + q) by rw [hlq, Fp.fin_add_fin]]
    rw [show Fp.pcmp (Fp.fin (c + q)) Fp.ninf = some Ordering.gt from rfl, hr]
    exact ⟨_, rfl⟩


/-- A positive-length first segment also absorbs a negative-infinite target:
the local fraction is negative infinity. -/
theorem selectInterp_first_pos_ninf (len : Line → Fp) (l0 : Line) (rest : List Line)
    (fb : Option Coordinate) (q0 : ℚ) (hl : len l0 = Fp.fin q0) (hq : 0 < q0)
    (hnn : ∀ l' ∈ rest, ∃ q' : ℚ, 0 ≤ q' ∧ len l' = Fp.fin q') :
    selectInterp len Fp.ninf (l0 :: rest) (Fp.fin 0) fb = some l0.start := by
  have hstep : Fp.pcmp (Fp.fin 0 + len l0) Fp.ninf = some Ordering.gt := by
    rw [hl, Fp.fin_add_fin]; rfl
  obtain ⟨r, hr⟩ := runQueue_ninf_isSome len rest hnn (0 + q0)
  have hr' : runQueue len Fp.ninf rest (Fp.fin 0 + len l0) = some r := by
    rwa [hl, Fp.fin_add_fin]
  have hrq := runQueue_cons_sel len Fp.ninf l0 rest (Fp.fin 0)
    Ordering.gt hstep (by simp) r hr'
  rw [selectInterp_of_runQueue_sel len Fp.ninf (l0 :: rest) (Fp.fin 0) fb _ hrq]
  show lineInterpolatePoint l0 ((Fp.ninf - Fp.fin 0) / len l0) = some l0.start
  rw [hl, Fp.ninf_sub_fin, Fp.ninf_div_fin_of_nonneg _ hq.le, interp_ninf]

/-- When the total length is zero and there is at least one segment, the
zero-length first segment is selected at target 0 and the local fraction is
`0/0 = NaN`, so the whole interpolation fails. -/
theorem selectInterp_all_zero (len : Line → Fp) (l0 : Line) (rest : List Line)
    (fb : Option Coordinate) (hl : len l0 = Fp.fin 0)
    (hnn : ∀ l' ∈ rest, ∃ q' : ℚ, 0 ≤ q' ∧ len l' = Fp.fin q') :
    selectInterp len (Fp.fin 0) (l0 :: rest) (Fp.fin 0) fb = none := by
  have hstep : Fp.pcmp (Fp.fin 0 + len l0) (Fp.fin 0) = some Ordering.eq := by
    rw [hl, Fp.fin_add_fin, add_zero, Fp.pcmp_fin_fin, Fp.qcmp_self]
  obtain ⟨r, hr⟩ := runQueue_fin_isSome len rest hnn 0 (0 + 0)
  have hr' : runQueue len (Fp.fin 0) rest (Fp.fin 0 + len l0) = some r := by
    rwa [hl, Fp.fin_add_fin]
  have hrq := runQueue_cons_sel len (Fp.fin 0) l0 rest (Fp.fin 0)
    Ordering.eq hstep (by simp) r hr'
  rw [selectInterp_of_runQueue_sel len (Fp.fin 0) (l0 :: rest) (Fp.fin 0) fb _ hrq]
  show lineInterpolatePoint l0 ((Fp.fin 0 - Fp.fin 0) / len l0) = none
  rw [hl, Fp.fin_sub_fin, sub_zero, Fp.zero_div_zero, interp_nan]

end Geo

namespace Geo

/-! ### The concrete witness length function is admissible -/

theorem qabs_nonneg (q : ℚ) : 0 ≤ qabs q := by
  unfold qabs
  split <;> linarith

theorem qabs_eq_zero (q : ℚ) : qabs q = 0 ↔ q = 0 := by
  unfold qabs
  split <;> constructor <;> intro h <;> linarith

theorem lenW_spec : IsLengthLike lenW := by
  refine ⟨?_, ?_, ?_⟩
  · intro l
    rcases l with ⟨⟨ax, ay⟩, ⟨bx, cy⟩⟩
    cases ax <;> cases ay <;> cases bx <;> cases cy <;>
      simp [lenW, Line.isFinite, Coordinate.isFinite, Fp.isFinite]
  · intro l hf
    rcases l with ⟨⟨ax, ay⟩, ⟨bx, cy⟩⟩
    cases ax <;> cases ay <;> cases bx <;> cases cy <;>
      simp [Line.isFinite, Coordinate.isFinite, Fp.isFinite] at hf
    exact ⟨_, add_nonneg (qabs_nonneg _) (qabs_nonneg _), rfl⟩
  · intro l hf
    rcases l with ⟨⟨ax, ay⟩, ⟨bx, cy⟩⟩
    cases ax <;> cases ay <;> cases bx <;> cases cy <;>
      simp [Line.isFinite, Coordinate.isFinite, Fp.isFinite] at hf
    show Fp.fin (qabs _ + qabs _) = Fp.fin 0 ↔ _
    rw [Fp.fin.injEq, Coordinate.mk.injEq, Fp.fin.injEq, Fp.fin.injEq]
    constructor
    · intro h
      obtain ⟨h1, h2⟩ :=
        (add_eq_zero_iff_of_nonneg (qabs_nonneg _) (qabs_nonneg _)).1 h
      have e1 := sub_eq_zero.1 ((qabs_eq_zero _).1 h1)
      have e2 := sub_eq_zero.1 ((qabs_eq_zero _).1 h2)
      exact ⟨e1.symm, e2.symm⟩
    · rintro ⟨rfl, rfl⟩
      simp [qabs]

/-! ### Degenerate path shapes -/

theorem interp_nil (len : Line → Fp) (f : Fp) :
    lineStringInterpolatePoint len [] f = none := rfl

theorem interp_singleton (len : Line → Fp) (c : Coordinate) (f : Fp) :
    lineStringInterpolatePoint len [c] f = some c := rfl

theorem exists_cons_cons_of_two_le (ls : LineString) (h2 : 2 ≤ ls.length) :
    ∃ a b r, ls = a :: b :: r := by
  cases ls with
  | nil => simp at h2
  | cons a tail =>
    cases tail with
    | nil => simp at h2
    | cons b r => exact ⟨a, b, r, rfl⟩

end Geo

namespace Geo

/-! ### Output finiteness and failure propagation -/

theorem interp_output_finite (l : Line) (f : Fp) (p : Coordinate)
    (hl : l.isFinite = true) (h : lineInterpolatePoint l f = some p) :
    p.isFinite = true := by
  have hstart : l.start.isFinite = true := by
    simp only [Line.isFinite, Bool.and_eq_true] at hl
    exact hl.1
  have hstop : l.stop.isFinite = true := by
    simp only [Line.isFinite, Bool.and_eq_true] at hl
    exact hl.2
  unfold lineInterpolatePoint at h
  cases h0 : Fp.pcmp f (Fp.fin 0) with
  | none => rw [h0] at h; simp at h
  | some o0 =>
    rw [h0] at h
    cases o0 with
    | lt => simp at h; rw [← h]; exact hstart
    | eq => simp at h; rw [← h]; exact hstart
    | gt =>
      cases h1 : Fp.pcmp f (Fp.fin 1) with
      | none => rw [h1] at h; simp at h
      | some o1 =>
        rw [h1] at h
        cases o1 with
        | gt => simp at h; rw [← h]; exact hstop
        | eq => simp at h; rw [← h]; exact hstop
        | lt =>
          simp only [] at h
          by_cases hg : ((f * (l.stop.x - l.start.x) + l.start.x).isFinite &&
              (f * (l.stop.y - l.start.y) + l.start.y).isFinite) = true
          · rw [if_pos hg] at h
            obtain rfl := Option.some.inj h
            exact hg
          · rw [if_neg hg] at h
            simp at h

/-- A path with at least two coordinates containing a non-finite coordinate
fails for every fraction: the segment carrying that coordinate has NaN length,
so its comparison is undefined and the queue collection fails. -/
theorem interp_none_of_nonfinite (len : Line → Fp) (hspec : IsLengthLike len)
    (ls : LineString) (h2 : 2 ≤ ls.length)
    (hbad : ∃ c ∈ ls, c.isFinite = false) (f : Fp) :
    lineStringInterpolatePoint len ls f = none := by
  obtain ⟨c, hc, hcbad⟩ := hbad
  obtain ⟨l, hlm, hcl⟩ := mem_lines_of_mem_coords c ls h2 hc
  have hlbad : l.isFinite = false := by
    rcases hcl with rfl | rfl
    · simp [Line.isFinite, hcbad]
    · simp [Line.isFinite, hcbad]
  have hnan : len l = Fp.nan := (hspec.nan_iff l).2 hlbad
  rw [interp_eq_selectInterp]
  exact selectInterp_of_runQueue_none _ _ _ _ _
    (runQueue_nan_length len (lines ls) ⟨l, hlm, hnan⟩ _ _)

/-! ### Behaviour of the path interpolator on finite paths -/

/-- On a finite multi-coordinate path whose first segment has positive length,
the total length is a positive finite value. -/
theorem total_pos_of_first_pos (len : Line → Fp) (ls : LineString)
    (l0 : Line) (rest : List Line) (q0 : ℚ) (hl : lines ls = l0 :: rest)
    (hnn : ∀ l ∈ lines ls, ∃ q : ℚ, 0 ≤ q ∧ len l = Fp.fin q)
    (hlen : len l0 = Fp.fin q0) (hq0 : 0 < q0) :
    ∃ T : ℚ, lineStringLength len ls = Fp.fin T ∧ 0 < T := by
  have hnn_rest : ∀ l ∈ rest, ∃ q : ℚ, 0 ≤ q ∧ len l = Fp.fin q :=
    fun l hlm => hnn l (hl ▸ List.mem_cons_of_mem _ hlm)
  obtain ⟨T, hT, hq0T, -⟩ := foldl_len_spec len rest hnn_rest (0 + q0)
  refine ⟨T, ?_, by linarith⟩
  show (lines ls).foldl (fun acc l => acc + len l) (Fp.fin 0) = Fp.fin T
  rw [hl]
  show rest.foldl (fun acc l => acc + len l) (Fp.fin 0 + len l0) = Fp.fin T
  rwa [hlen, Fp.fin_add_fin]

theorem exists_cons_cons_of_lines (ls : LineString) (l0 : Line) (rest : List Line)
    (h : lines ls = l0 :: rest) : ∃ a b r, ls = a :: b :: r := by
  cases ls with
  | nil => simp [lines_nil] at h
  | cons a tail =>
    cases tail with
    | nil => simp [lines_single] at h
    | cons b r => exact ⟨a, b, r, rfl⟩

/-- Interpolating a finite multi-coordinate path of positive total length at
fraction 1 yields its last point. -/
theorem interp_one_eq_getLast (len : Line → Fp) (hspec : IsLengthLike len)
    (ls : LineString) (hfin : finitePath ls = true) (l0 : Line) (rest : List Line)
    (hl : lines ls = l0 :: rest) (T : ℚ)
    (htot : lineStringLength len ls = Fp.fin T) (hTpos : 0 < T) :
    lineStringInterpolatePoint len ls (Fp.fin 1) = ls.getLast? := by
  have hsegs_fin : ∀ l ∈ lines ls, l.isFinite = true := lines_finite_of_finitePath ls hfin
  rw [interp_eq_selectInterp, htot, Fp.fin_mul_fin, mul_one]
  have hfold : (lines ls).foldl (fun acc l => acc + len l) (Fp.fin 0) = Fp.fin T := htot
  rw [selectInterp_total len hspec T (lines ls) 0 hsegs_fin (chained_lines ls) hTpos hfold
    ls.getLast?]
  obtain ⟨a, b, r, rfl⟩ := exists_cons_cons_of_lines ls l0 rest hl
  exact getLast_lines r a b

/-- Interpolating a finite multi-coordinate path whose first segment has
positive length at fraction 0 yields its first point. -/
theorem interp_zero_eq_head (len : Line → Fp) (ls : LineString)
    (l0 : Line) (rest : List Line) (q0 : ℚ) (hl : lines ls = l0 :: rest)
    (hnn : ∀ l ∈ lines ls, ∃ q : ℚ, 0 ≤ q ∧ len l = Fp.fin q)
    (hlen : len l0 = Fp.fin q0) (hq0 : 0 < q0) (T : ℚ)
    (htot : lineStringLength len ls = Fp.fin T) :
    lineStringInterpolatePoint len ls (Fp.fin 0) = ls.head? := by
  have hnn_rest : ∀ l ∈ rest, ∃ q : ℚ, 0 ≤ q ∧ len l = Fp.fin q :=
    fun l hlm => hnn l (hl ▸ List.mem_cons_of_mem _ hlm)
  rw [interp_eq_selectInterp, htot, Fp.fin_mul_fin, mul_zero, hl]
  rw [selectInterp_first_pos_fin len l0 rest _ q0 0 hlen hq0 le_rfl hnn_rest]
  exact (head_of_lines ls l0 rest hl).symm

/-- A path of zero total length with at least one segment fails at every
finite fraction (the zero-length first segment is selected and `0/0` is NaN)
and at both infinite fractions (`0 * ±inf` is NaN). -/
theorem interp_zero_total_none (len : Line → Fp) (ls : LineString)
    (l0 : Line) (rest : List Line) (hl : lines ls = l0 :: rest)
    (hnn : ∀ l ∈ lines ls, ∃ q : ℚ, 0 ≤ q ∧ len l = Fp.fin q)
    (htot : lineStringLength len ls = Fp.fin 0) :
    (∀ q : ℚ, lineStringInterpolatePoint len ls (Fp.fin q) = none) ∧
    lineStringInterpolatePoint len ls Fp.pinf = none ∧
    lineStringInterpolatePoint len ls Fp.ninf = none := by
  have hnn' : ∀ l ∈ l0 :: rest, ∃ q : ℚ, 0 ≤ q ∧ len l = Fp.fin q := hl ▸ hnn
  have hnn_rest : ∀ l ∈ rest, ∃ q : ℚ, 0 ≤ q ∧ len l = Fp.fin q :=
    fun l hlm => hnn' l (List.mem_cons_of_mem _ hlm)
  have hfold : (l0 :: rest).foldl (fun acc l => acc + len l) (Fp.fin 0) = Fp.fin 0 := by
    have h0 : (lines ls).foldl (fun acc l => acc + len l) (Fp.fin 0) = Fp.fin 0 := htot
    rwa [hl] at h0
  have hl0zero : len l0 = Fp.fin 0 := by
    obtain ⟨T2, hT2, h0T2, hz⟩ := foldl_len_spec len (l0 :: rest) hnn' 0
    have hT20 : T2 = 0 := Fp.fin.inj (hT2.symm.trans hfold)
    exact hz (by linarith) l0 (List.mem_cons_self l0 rest)
  refine ⟨?_, ?_, ?_⟩
  · intro q
    rw [interp_eq_selectInterp, htot, Fp.fin_mul_fin, zero_mul, hl]
    exact selectInterp_all_zero len l0 rest _ hl0zero hnn_rest
  · rw [interp_eq_selectInterp, htot, Fp.zero_mul_pinf, hl]
    exact selectInterp_of_runQueue_none _ _ _ _ _ (runQueue_nan_target len l0 rest _)
  · rw [interp_eq_selectInterp, htot, Fp.zero_mul_ninf, hl]
    exact selectInterp_of_runQueue_none _ _ _ _ _ (runQueue_nan_target len l0 rest _)

/-- Above fraction 1 on a positive-total-length finite path, the scan runs off
the end and the fallback returns the last point. -/
theorem interp_above_one (len : Line → Fp) (ls : LineString)
    (l0 : Line) (rest : List Line) (_hl : lines ls = l0 :: rest)
    (hnn : ∀ l ∈ lines ls, ∃ q : ℚ, 0 ≤ q ∧ len l = Fp.fin q)
    (T : ℚ) (htot : lineStringLength len ls = Fp.fin T) (hTpos : 0 < T)
    (q : ℚ) (hq : 1 < q) :
    lineStringInterpolatePoint len ls (Fp.fin q) = ls.getLast? := by
  rw [interp_eq_selectInterp, htot, Fp.fin_mul_fin]
  have hfold : (lines ls).foldl (fun acc l => acc + len l) (Fp.fin 0) = Fp.fin T := htot
  have hTq : T < T * q := by nlinarith
  exact selectInterp_of_runQueue_fb _ _ _ _ _
    (runQueue_beyond len (lines ls) hnn 0 T (T * q) hfold hTq)

/-- At fraction `+inf` on a positive-total-length finite path, the target is
`+inf` and the fallback returns the last point. -/
theorem interp_pinf_fallback (len : Line → Fp) (ls : LineString)
    (hnn : ∀ l ∈ lines ls, ∃ q : ℚ, 0 ≤ q ∧ len l = Fp.fin q)
    (T : ℚ) (htot : lineStringLength len ls = Fp.fin T) (hTpos : 0 < T) :
    lineStringInterpolatePoint len ls Fp.pinf = ls.getLast? := by
  rw [interp_eq_selectInterp, htot, Fp.fin_mul_pinf_of_pos T hTpos]
  exact selectInterp_of_runQueue_fb _ _ _ _ _ (runQueue_pinf_target len (lines ls) hnn 0)

/-- Below fraction 0 with a positive-length first segment, the first segment
is selected with a negative local fraction and its start is returned. -/
theorem interp_below_zero (len : Line → Fp) (ls : LineString)
    (l0 : Line) (rest : List Line) (q0 : ℚ) (hl : lines ls = l0 :: rest)
    (hnn : ∀ l ∈ lines ls, ∃ q : ℚ, 0 ≤ q ∧ len l = Fp.fin q)
    (hlen : len l0 = Fp.fin q0) (hq0 : 0 < q0)
    (T : ℚ) (htot : lineStringLength len ls = Fp.fin T) (hTpos : 0 < T)
    (q : ℚ) (hq : q < 0) :
    lineStringInterpolatePoint len ls (Fp.fin q) = some l0.start := by
  have hnn_rest : ∀ l ∈ rest, ∃ q' : ℚ, 0 ≤ q' ∧ len l = Fp.fin q' :=
    fun l hlm => hnn l (hl ▸ List.mem_cons_of_mem _ hlm)
  rw [interp_eq_selectInterp, htot, Fp.fin_mul_fin, hl]
  exact selectInterp_first_pos_fin len l0 rest _ q0 (T * q) hlen hq0
    (by nlinarith) hnn_rest

/-- At fraction `-inf` with a positive-length first segment, the first segment
is selected with local fraction `-inf` and its start is returned. -/
theorem interp_ninf_start (len : Line → Fp) (ls : LineString)
    (l0 : Line) (rest : List Line) (q0 : ℚ) (hl : lines ls = l0 :: rest)
    (hnn : ∀ l ∈ lines ls, ∃ q : ℚ, 0 ≤ q ∧ len l = Fp.fin q)
    (hlen : len l0 = Fp.fin q0) (hq0 : 0 < q0)
    (T : ℚ) (htot : lineStringLength len ls = Fp.fin T) (hTpos : 0 < T) :
    lineStringInterpolatePoint len ls Fp.ninf = some l0.start := by
  have hnn_rest : ∀ l ∈ rest, ∃ q' : ℚ, 0 ≤ q' ∧ len l = Fp.fin q' :=
    fun l hlm => hnn l (hl ▸ List.mem_cons_of_mem _ hlm)
  rw [interp_eq_selectInterp, htot, Fp.fin_mul_ninf_of_pos T hTpos, hl]
  exact selectInterp_first_pos_ninf len l0 rest _ q0 hlen hq0 hnn_rest

end Geo

namespace Geo

/-! ### Claims -/

/-- C1 (amended): for every finite non-empty path that is a single point or
whose first segment has positive length, interpolating at fraction 0 returns
the first point and interpolating at fraction 1 returns the last point. -/
theorem C1_path_endpoint_fractions (len : Line → Fp) (hspec : IsLengthLike len)
    (ls : LineString) (hfin : finitePath ls = true) (hne : ls ≠ [])
    (hfirst : lines ls = [] ∨
      ∃ l0 rest q0, lines ls = l0 :: rest ∧ len l0 = Fp.fin q0 ∧ 0 < q0) :
    lineStringInterpolatePoint len ls (Fp.fin 0) = ls.head? ∧
    lineStringInterpolatePoint len ls (Fp.fin 1) = ls.getLast? := by
  rcases hfirst with hnil | ⟨l0, rest, q0, hl, hlen, hq0⟩
  · obtain ⟨c, rfl⟩ := eq_single_of_lines_nil ls hne hnil
    exact ⟨interp_singleton len c _, interp_singleton len c _⟩
  · have hnn : ∀ l ∈ lines ls, ∃ q : ℚ, 0 ≤ q ∧ len l = Fp.fin q :=
      fun l hlm => hspec.fin_of l (lines_finite_of_finitePath ls hfin l hlm)
    obtain ⟨T, htot, hTpos⟩ := total_pos_of_first_pos len ls l0 rest q0 hl hnn hlen hq0
    exact ⟨interp_zero_eq_head len ls l0 rest q0 hl hnn hlen hq0 T htot,
           interp_one_eq_getLast len hspec ls hfin l0 rest hl T htot hTpos⟩

/-- Witness for C1 on the concrete two-point path of length 2. -/
theorem C1_path_endpoint_fractions_witness :
    lineStringInterpolatePoint lenW pPlain (Fp.fin 0) = pPlain.head? ∧
    lineStringInterpolatePoint lenW pPlain (Fp.fin 1) = pPlain.getLast? :=
  C1_path_endpoint_fractions lenW lenW_spec pPlain (by with_unfolding_all decide)
    (by with_unfolding_all decide)
    (Or.inr ⟨⟨⟨Fp.fin 0, Fp.fin 0⟩, ⟨Fp.fin 2, Fp.fin 0⟩⟩, [], 2, rfl,
      by with_unfolding_all decide, by with_unfolding_all decide⟩)

/-- Counterexample to C1 as stated: a finite non-empty path whose first
segment is degenerate fails at fraction 0 instead of returning its first
point (the local fraction is `0/0 = NaN`). -/
theorem C1_counterexample :
    finitePath pDegen = true ∧ pDegen ≠ [] ∧
    lineStringInterpolatePoint lenW pDegen (Fp.fin 0) = none ∧
    lineStringInterpolatePoint lenW pDegen (Fp.fin 0) ≠ pDegen.head? := by
  with_unfolding_all decide

/-- C2: the segment interpolator returns exactly the start point for every
fraction ≤ 0 (including `-inf`) and exactly the end point for every fraction
≥ 1 (including `+inf`), even when the other endpoint is non-finite. -/
theorem C2_segment_boundary (l : Line) (f : Fp) :
    ((f = Fp.ninf ∨ ∃ q : ℚ, q ≤ 0 ∧ f = Fp.fin q) →
      lineInterpolatePoint l f = some l.start) ∧
    ((f = Fp.pinf ∨ ∃ q : ℚ, 1 ≤ q ∧ f = Fp.fin q) →
      lineInterpolatePoint l f = some l.stop) := by
  constructor
  · rintro (rfl | ⟨q, hq, rfl⟩)
    · exact interp_ninf l
    · exact interp_fin_nonpos l q hq
  · rintro (rfl | ⟨q, hq, rfl⟩)
    · exact interp_pinf l
    · exact interp_fin_one_le l q hq

/-- Witness for C2 on segments with a non-finite far endpoint. -/
theorem C2_segment_boundary_witness :
    lineInterpolatePoint ⟨⟨Fp.fin 0, Fp.fin 1⟩, ⟨Fp.nan, Fp.pinf⟩⟩ (Fp.fin (-2)) =
      some ⟨Fp.fin 0, Fp.fin 1⟩ ∧
    lineInterpolatePoint ⟨⟨Fp.nan, Fp.pinf⟩, ⟨Fp.fin 3, Fp.fin 4⟩⟩ Fp.pinf =
      some ⟨Fp.fin 3, Fp.fin 4⟩ :=
  ⟨(C2_segment_boundary _ _).1 (Or.inr ⟨-2, by with_unfolding_all decide, rfl⟩),
   (C2_segment_boundary _ _).2 (Or.inl rfl)⟩

/-- C3: on an all-finite non-degenerate segment, a fraction strictly between
0 and 1 yields exactly the componentwise affine combination
`start + f * (end - start)` (exact in the rational model; the code's
finiteness guard is passed since the computed components are finite). -/
theorem C3_segment_interior_affine (ax ay bx cy q : ℚ) (h0 : 0 < q) (h1 : q < 1)
    (_hnd : (⟨Fp.fin ax, Fp.fin ay⟩ : Coordinate) ≠ ⟨Fp.fin bx, Fp.fin cy⟩) :
    lineInterpolatePoint ⟨⟨Fp.fin ax, Fp.fin ay⟩, ⟨Fp.fin bx, Fp.fin cy⟩⟩ (Fp.fin q) =
      some ⟨Fp.fin (ax + q * (bx - ax)), Fp.fin (ay + q * (cy - ay))⟩ := by
  rw [interp_fin_mid _ q h0 h1]
  dsimp only
  simp only [Fp.fin_sub_fin, Fp.fin_mul_fin, Fp.fin_add_fin]
  have e1 : q * (bx - ax) + ax = ax + q * (bx - ax) := by ring
  have e2 : q * (cy - ay) + ay = ay + q * (cy - ay) := by ring
  rw [e1, e2]
  rfl

/-- Witness for C3 at the midpoint of the diagonal segment. -/
theorem C3_segment_interior_affine_witness :
    lineInterpolatePoint ⟨⟨Fp.fin 0, Fp.fin 0⟩, ⟨Fp.fin 2, Fp.fin 2⟩⟩ (Fp.fin (1/2)) =
      some ⟨Fp.fin (0 + 1/2 * (2 - 0)), Fp.fin (0 + 1/2 * (2 - 0))⟩ :=
  C3_segment_interior_affine 0 0 2 2 (1/2) (by with_unfolding_all decide)
    (by with_unfolding_all decide) (by with_unfolding_all decide)

/-- C5 (amended): interpolating with a NaN fraction fails for every segment,
and for every path that is empty or has at least two coordinates; a
single-point path instead returns its point. -/
theorem C5_nan_fraction (l : Line) (len : Line → Fp) (ls : LineString)
    (h : ls = [] ∨ 2 ≤ ls.length) :
    lineInterpolatePoint l Fp.nan = none ∧
    lineStringInterpolatePoint len ls Fp.nan = none := by
  refine ⟨interp_nan l, ?_⟩
  rcases h with rfl | h2
  · exact interp_nil len Fp.nan
  · obtain ⟨a, b, r, rfl⟩ := exists_cons_cons_of_two_le _ h2
    rw [interp_eq_selectInterp, Fp.mul_nan_right, lines_cons_cons]
    exact selectInterp_of_runQueue_none _ _ _ _ _ (runQueue_nan_target len _ _ _)

/-- Witness for C5 on a concrete segment and two-point path. -/
theorem C5_nan_fraction_witness :
    lineInterpolatePoint ⟨⟨Fp.fin 0, Fp.fin 0⟩, ⟨Fp.fin 1, Fp.fin 0⟩⟩ Fp.nan = none ∧
    lineStringInterpolatePoint lenW pPlain Fp.nan = none :=
  C5_nan_fraction _ lenW pPlain (Or.inr (by with_unfolding_all decide))

/-- Counterexample to C5 as stated: a single-point path returns its point
even for a NaN fraction, so not every path fails on NaN. -/
theorem C5_counterexample :
    lineStringInterpolatePoint lenW [⟨Fp.fin 5, Fp.fin 5⟩] Fp.nan =
      some ⟨Fp.fin 5, Fp.fin 5⟩ ∧
    lineStringInterpolatePoint lenW [⟨Fp.fin 5, Fp.fin 5⟩] Fp.nan ≠ none := by
  with_unfolding_all decide

/-- C7: a single-point path returns its single point for every fraction,
through the fallback-to-last-point branch (no segment is ever selected). -/
theorem C7_single_point (len : Line → Fp) (c : Coordinate) (f : Fp) :
    lineStringInterpolatePoint len [c] f = some c ∧
    runQueue len (lineStringLength len [c] * f) (lines [c]) (Fp.fin 0) = some none ∧
    ([c] : LineString).getLast? = some c :=
  ⟨interp_singleton len c f, rfl, rfl⟩

end Geo

namespace Geo

/-- C4 (amended): a path with at least two coordinates containing a NaN or
infinite coordinate fails for every finite fraction; a single-point
non-finite path instead returns its point. -/
theorem C4_nonfinite_path_fails (len : Line → Fp) (hspec : IsLengthLike len)
    (ls : LineString) (h2 : 2 ≤ ls.length)
    (hbad : ∃ c ∈ ls, c.isFinite = false) (q : ℚ) :
    lineStringInterpolatePoint len ls (Fp.fin q) = none :=
  interp_none_of_nonfinite len hspec ls h2 hbad (Fp.fin q)

/-- Witness for C4 on a two-point path with a NaN coordinate. -/
theorem C4_nonfinite_path_fails_witness :
    lineStringInterpolatePoint lenW [⟨Fp.fin 0, Fp.fin 0⟩, ⟨Fp.nan, Fp.fin 0⟩]
      (Fp.fin (1/2)) = none :=
  C4_nonfinite_path_fails lenW lenW_spec _ (by with_unfolding_all decide)
    ⟨⟨Fp.nan, Fp.fin 0⟩, by with_unfolding_all decide, by with_unfolding_all decide⟩ (1/2)

/-- Counterexample to C4 as stated: a single-point path containing a NaN
coordinate still returns that point at a finite fraction. -/
theorem C4_counterexample :
    (⟨Fp.nan, Fp.fin 0⟩ : Coordinate).isFinite = false ∧
    lineStringInterpolatePoint lenW [⟨Fp.nan, Fp.fin 0⟩] (Fp.fin 0) =
      some ⟨Fp.nan, Fp.fin 0⟩ ∧
    lineStringInterpolatePoint lenW [⟨Fp.nan, Fp.fin 0⟩] (Fp.fin 0) ≠ none := by
  with_unfolding_all decide

/-- C6 (amended): for every finite non-empty path, every fraction above 1
(finite or `+inf`) gives the same result as fraction 1; and every fraction
below 0 (finite or `-inf`) gives the same result as fraction 0 provided the
path is a single point, its first segment has positive length, or its total
length is zero. -/
theorem C6_out_of_range_clamps (len : Line → Fp) (hspec : IsLengthLike len)
    (ls : LineString) (hfin : finitePath ls = true) (hne : ls ≠ []) (f : Fp) :
    ((f = Fp.pinf ∨ ∃ q : ℚ, 1 < q ∧ f = Fp.fin q) →
      lineStringInterpolatePoint len ls f = lineStringInterpolatePoint len ls (Fp.fin 1)) ∧
    ((f = Fp.ninf ∨ ∃ q : ℚ, q < 0 ∧ f = Fp.fin q) →
      (lines ls = [] ∨
        (∃ l0 rest q0, lines ls = l0 :: rest ∧ len l0 = Fp.fin q0 ∧ 0 < q0) ∨
        lineStringLength len ls = Fp.fin 0) →
      lineStringInterpolatePoint len ls f = lineStringInterpolatePoint len ls (Fp.fin 0)) := by
  have hnn : ∀ l ∈ lines ls, ∃ q : ℚ, 0 ≤ q ∧ len l = Fp.fin q :=
    fun l hlm => hspec.fin_of l (lines_finite_of_finitePath ls hfin l hlm)
  obtain hcase | ⟨l0, rest, hl⟩ : lines ls = [] ∨ ∃ l0 rest, lines ls = l0 :: rest := by
    cases h : lines ls with
    | nil => exact Or.inl rfl
    | cons a b => exact Or.inr ⟨a, b, rfl⟩
  · obtain ⟨c, rfl⟩ := eq_single_of_lines_nil ls hne hcase
    constructor
    · intro _
      rw [interp_singleton, interp_singleton]
    · intro _ _
      rw [interp_singleton, interp_singleton]
  · obtain ⟨T, htot0, hT0, -⟩ := foldl_len_spec len (lines ls) hnn 0
    have htot : lineStringLength len ls = Fp.fin T := htot0
    constructor
    · rintro (rfl | ⟨q, hq, rfl⟩)
      · rcases eq_or_lt_of_le hT0 with hTz | hTpos
        · have hz := interp_zero_total_none len ls l0 rest hl hnn
            (by rw [htot, ← hTz])
          rw [hz.2.1, hz.1 1]
        · rw [interp_pinf_fallback len ls hnn T htot hTpos,
            interp_one_eq_getLast len hspec ls hfin l0 rest hl T htot hTpos]
      · rcases eq_or_lt_of_le hT0 with hTz | hTpos
        · have hz := interp_zero_total_none len ls l0 rest hl hnn
            (by rw [htot, ← hTz])
          rw [hz.1 q, hz.1 1]
        · rw [interp_above_one len ls l0 rest hl hnn T htot hTpos q hq,
            interp_one_eq_getLast len hspec ls hfin l0 rest hl T htot hTpos]
    · rintro hf h3
      rcases h3 with hnil | ⟨l0', rest', q0', hl', hlen', hq0'⟩ | h0
      · rw [hnil] at hl
        exact absurd hl (by simp)
      · obtain ⟨T2, htot2, hT2pos⟩ :=
          total_pos_of_first_pos len ls l0' rest' q0' hl' hnn hlen' hq0'
        have hTpos : 0 < T := by
          have : T = T2 := Fp.fin.inj (htot.symm.trans htot2)
          rw [this]
          exact hT2pos
        rcases hf with rfl | ⟨q, hq, rfl⟩
        · rw [interp_ninf_start len ls l0' rest' q0' hl' hnn hlen' hq0' T htot hTpos,
            interp_zero_eq_head len ls l0' rest' q0' hl' hnn hlen' hq0' T htot,
            head_of_lines ls l0' rest' hl']
        · rw [interp_below_zero len ls l0' rest' q0' hl' hnn hlen' hq0' T htot hTpos q hq,
            interp_zero_eq_head len ls l0' rest' q0' hl' hnn hlen' hq0' T htot,
            head_of_lines ls l0' rest' hl']
      · have hz := interp_zero_total_none len ls l0 rest hl hnn h0
        rcases hf with rfl | ⟨q, hq, rfl⟩
        · rw [hz.2.2, hz.1 0]
        · rw [hz.1 q, hz.1 0]

/-- Witness for C6 on the concrete two-point path of length 2 with fractions
2 and -1. -/
theorem C6_out_of_range_clamps_witness :
    (lineStringInterpolatePoint lenW pPlain (Fp.fin 2) =
      lineStringInterpolatePoint lenW pPlain (Fp.fin 1)) ∧
    (lineStringInterpolatePoint lenW pPlain (Fp.fin (-1)) =
      lineStringInterpolatePoint lenW pPlain (Fp.fin 0)) :=
  ⟨(C6_out_of_range_clamps lenW lenW_spec pPlain (by with_unfolding_all decide)
      (by with_unfolding_all decide) (Fp.fin 2)).1
      (Or.inr ⟨2, by with_unfolding_all decide, rfl⟩),
   (C6_out_of_range_clamps lenW lenW_spec pPlain (by with_unfolding_all decide)
      (by with_unfolding_all decide) (Fp.fin (-1))).2
      (Or.inr ⟨-1, by with_unfolding_all decide, rfl⟩)
      (Or.inr (Or.inl ⟨⟨⟨Fp.fin 0, Fp.fin 0⟩, ⟨Fp.fin 2, Fp.fin 0⟩⟩, [], 2, rfl,
        by with_unfolding_all decide, by with_unfolding_all decide⟩))⟩

/-- Counterexample to C6 as stated: on the finite non-empty path with a
degenerate first segment, fraction -1 returns the first point while fraction
0 fails, so the f < 0 clause does not hold for every finite non-empty path. -/
theorem C6_counterexample :
    finitePath pDegen = true ∧ pDegen ≠ [] ∧
    lineStringInterpolatePoint lenW pDegen (Fp.fin (-1)) =
      some ⟨Fp.fin 0, Fp.fin 0⟩ ∧
    lineStringInterpolatePoint lenW pDegen (Fp.fin (-1)) ≠
      lineStringInterpolatePoint lenW pDegen (Fp.fin 0) := by
  with_unfolding_all decide

/-- C8 (amended): when the first-match search selects a zero-length segment
whose cumulative-length-before equals the target fractional length, the local
fraction is `0/0 = NaN` and the whole path interpolation returns None. -/
theorem C8_zero_length_selected (len : Line → Fp) (ls : LineString) (f : Fp)
    (o : Ordering) (seg : Line)
    (hsel : runQueue len (lineStringLength len ls * f) (lines ls) (Fp.fin 0) =
      some (some (lineStringLength len ls * f, o, Fp.fin 0, seg))) :
    (lineStringLength len ls * f - lineStringLength len ls * f) / Fp.fin 0 = Fp.nan ∧
    lineStringInterpolatePoint len ls f = none := by
  have hsub : ∀ x : Fp, (x - x) / Fp.fin 0 = Fp.nan := by
    intro x
    cases x with
    | nan => rfl
    | pinf => rfl
    | ninf => rfl
    | fin a => rw [Fp.fin_sub_fin, sub_self, Fp.zero_div_zero]
  refine ⟨hsub _, ?_⟩
  rw [interp_eq_selectInterp, selectInterp_of_runQueue_sel _ _ _ _ _ _ hsel]
  show lineInterpolatePoint seg
    ((lineStringLength len ls * f - lineStringLength len ls * f) / Fp.fin 0) = none
  rw [hsub, interp_nan]

/-- Witness for C8: at fraction 0 on the degenerate-first-segment path, the
zero-length first segment is selected at cumulative length 0 = target, and
the interpolation fails. -/
theorem C8_zero_length_selected_witness :
    (lineStringLength lenW pDegen * Fp.fin 0 -
      lineStringLength lenW pDegen * Fp.fin 0) / Fp.fin 0 = Fp.nan ∧
    lineStringInterpolatePoint lenW pDegen (Fp.fin 0) = none :=
  C8_zero_length_selected lenW pDegen (Fp.fin 0) Ordering.eq
    ⟨⟨Fp.fin 0, Fp.fin 0⟩, ⟨Fp.fin 0, Fp.fin 0⟩⟩ (by with_unfolding_all decide)

/-- Counterexample to C8 as stated: at fraction -1 on the same path the
search also selects the zero-length first segment, but the local fraction is
`-1/0 = -inf` (not `0/0`) and the interpolation returns the segment's start
instead of None. -/
theorem C8_counterexample :
    runQueue lenW (lineStringLength lenW pDegen * Fp.fin (-1)) (lines pDegen) (Fp.fin 0) =
      some (some (Fp.fin 0, Ordering.gt, Fp.fin 0,
        ⟨⟨Fp.fin 0, Fp.fin 0⟩, ⟨Fp.fin 0, Fp.fin 0⟩⟩)) ∧
    lineStringInterpolatePoint lenW pDegen (Fp.fin (-1)) = some ⟨Fp.fin 0, Fp.fin 0⟩ ∧
    lineStringInterpolatePoint lenW pDegen (Fp.fin (-1)) ≠ none := by
  with_unfolding_all decide

/-- C9: whenever the path interpolator returns a point on a path with at
least two coordinates, both coordinates of that point are finite. -/
theorem C9_output_finite (len : Line → Fp) (hspec : IsLengthLike len)
    (ls : LineString) (h2 : 2 ≤ ls.length) (f : Fp) (p : Coordinate)
    (h : lineStringInterpolatePoint len ls f = some p) : p.isFinite = true := by
  by_cases hfin : finitePath ls = true
  · rw [interp_eq_selectInterp] at h
    cases hrq : runQueue len (lineStringLength len ls * f) (lines ls) (Fp.fin 0) with
    | none =>
      rw [selectInterp_of_runQueue_none _ _ _ _ _ hrq] at h
      exact absurd h (by simp)
    | some r =>
      cases r with
      | none =>
        rw [selectInterp_of_runQueue_fb _ _ _ _ _ hrq] at h
        exact List.all_eq_true.1 hfin p (List.mem_of_getLast?_eq_some h)
      | some e =>
        rw [selectInterp_of_runQueue_sel _ _ _ _ _ _ hrq] at h
        exact interp_output_finite _ _ _
          (lines_finite_of_finitePath ls hfin _ (runQueue_sel_mem len _ (lines ls) _ e hrq)) h
  · have hbad : ∃ c ∈ ls, c.isFinite = false := by
      by_contra hno
      push_neg at hno
      apply hfin
      refine List.all_eq_true.2 fun c hc => ?_
      simpa using hno c hc
    rw [interp_none_of_nonfinite len hspec ls h2 hbad f] at h
    exact absurd h (by simp)

/-- Witness for C9: a midpoint interpolation on a concrete finite path yields
a finite point. -/
theorem C9_output_finite_witness :
    (⟨Fp.fin (1/2), Fp.fin 0⟩ : Coordinate).isFinite = true :=
  C9_output_finite lenW lenW_spec [⟨Fp.fin 0, Fp.fin 0⟩, ⟨Fp.fin 1, Fp.fin 0⟩]
    (by with_unfolding_all decide) (Fp.fin (1/2)) ⟨Fp.fin (1/2), Fp.fin 0⟩
    (by with_unfolding_all decide)

end Geo
